import Mathlib

/-!
Verification development for the collproc repository (src/banquet.py).

The module applies a "Banquet Table" constraint to a DBSCAN clustering: a
collection of attendees, a reference set of guests, a distance threshold d,
a derived tablemate graph, a clique validator over cluster labels, an
epsilon-shrinking search loop, and a family of guest-sharing metrics.

Shallow embedding conventions:
- pandas frames become a `Frame` structure: an index of natural-number ids
  plus named columns of rational values, aligned positionally;
- numpy floats become rationals; the strict Euclidean comparison
  `norm (v - w) < d` is expressed on rationals as `0 < d ∧ sqDist v w < d * d`
  (the distance is nonnegative, so both sides square exactly);
- a Python expression that can raise (KeyError on a missing column,
  ZeroDivisionError on an unguarded division) becomes `Except String`;
- `np.mean` of an empty list is NaN; it is modeled as `none` in `Option ℚ`;
- pandas `Series.unique` (first-occurrence order) is modeled by `uniq`;
- `Series.loc` lookup is modeled by association-list lookup (`find?`),
  which agrees with pandas when the index is duplicate-free.
-/

namespace Collproc

/-- Helper for `uniq`: keep the elements of the list not yet seen,
in first-occurrence order. -/
def uniqAux {α : Type} [DecidableEq α] : List α → List α → List α
  | _, [] => []
  | seen, a :: l => if a ∈ seen then uniqAux seen l else a :: uniqAux (a :: seen) l

/-- Model of `pandas.Series.unique` / Python `set` materialization as used in
banquet.py: the distinct elements of a list in first-occurrence order. -/
def uniq {α : Type} [DecidableEq α] (l : List α) : List α := uniqAux [] l

/-- A pandas DataFrame restricted to what banquet.py uses: an index of ids and
named numeric columns, all aligned by position. -/
structure Frame where
  index : List ℕ
  cols : List (String × List ℚ)

/-- Column lookup in a frame (`frame[c]` for a single column name). -/
def colLookup (f : Frame) (c : String) : Option (List ℚ) :=
  (f.cols.find? (fun p => p.1 == c)).map Prod.snd

/-- `frame[feature_columns]`: select the named columns, raising KeyError
(modeled as `Except.error`) when a requested column is absent. -/
def selectCols (f : Frame) : List String → Except String (List (List ℚ))
  | [] => .ok []
  | c :: rest =>
    match colLookup f c with
    | none => .error ("KeyError: " ++ c)
    | some v => do
      let vs ← selectCols f rest
      .ok (v :: vs)

/-- The i-th row of a column-major selection (`.values` row). -/
def rowAt (cols : List (List ℚ)) (i : ℕ) : List ℚ := cols.map (fun col => col.getD i 0)

/-- The rows of `frame[feature_columns].values` paired with the frame's index
(banquet.py line 31/32 plus line 34). -/
def frameRows (f : Frame) (cs : List String) : Except String (List (ℕ × List ℚ)) := do
  let cols ← selectCols f cs
  .ok ((List.range f.index.length).map (fun i => (f.index.getD i 0, rowAt cols i)))

/-- Squared Euclidean distance between two aligned feature rows
(`np.linalg.norm(a - b)` squared). -/
def sqDist (v w : List ℚ) : ℚ := ((v.zip w).map (fun p => (p.1 - p.2) ^ 2)).sum

/-- The numpy comparison `norm (v - w) < d` on rational data: the norm is
nonnegative, so it is strictly below d iff d is positive and the squared
distance is strictly below d * d. This is banquet.py line 35's `row < d`. -/
def distLt (v w : List ℚ) (d : ℚ) : Bool := decide (0 < d) && decide (sqDist v w < d * d)

/-- One attendee's guest list: the reference ids whose row is strictly closer
than d, in reference order (`reference_indices[row < d]`, banquet.py line 35). -/
def guestListFor (refRows : List (ℕ × List ℚ)) (v : List ℚ) (d : ℚ) : List ℕ :=
  (refRows.filter (fun p => distLt v p.2 d)).map Prod.fst

/-- banquet.py `get_guest_lists` (lines 27-36): per-attendee guest lists from
the broadcast pairwise Euclidean distances, as a Series indexed like the
collection frame. Column selection can raise KeyError; nothing else raises. -/
def get_guest_lists (coll ref : Frame) (cs : List String) (d : ℚ) :
    Except String (List (ℕ × List ℕ)) := do
  let collRows ← frameRows coll cs
  let refRows ← frameRows ref cs
  .ok (collRows.map (fun p => (p.1, guestListFor refRows p.2 d)))

/-- Python `set(a).intersection(set(b))` truthiness (nonempty intersection). -/
def intersects (a b : List ℕ) : Bool := a.any (fun x => decide (x ∈ b))

/-- One attendee's allowable-tablemate list (banquet.py line 52): every other
collection id whose guest set meets this attendee's guest set. -/
def tablematesFor (gl : List (ℕ × List ℕ)) (i : ℕ) (gi : List ℕ) : List ℕ :=
  (gl.filter (fun p => decide (p.1 ≠ i) && intersects gi p.2)).map Prod.fst

/-- banquet.py `get_allowable_tablemates_lists` (lines 38-55). -/
def get_allowable_tablemates_lists (gl : List (ℕ × List ℕ)) : List (ℕ × List ℕ) :=
  gl.map (fun p => (p.1, tablematesFor gl p.1 p.2))

/-- `guest_lists.loc[m]` under the banquet.py precondition that the looked-up
id is present in the (duplicate-free) collection index. -/
def glLookup (gl : List (ℕ × List ℕ)) (i : ℕ) : List ℕ :=
  ((gl.find? (fun p => p.1 == i)).map Prod.snd).getD []

/-- banquet.py line 88: collection ids whose guest list is empty. -/
def lonelies (gl : List (ℕ × List ℕ)) : List ℕ :=
  (gl.filter (fun p => p.2.isEmpty)).map Prod.fst

/-- banquet.py line 89: ids with an empty allowable-tablemates list, minus the
lonelies. -/
def outsiders (gl : List (ℕ × List ℕ)) : List ℕ :=
  (((get_allowable_tablemates_lists gl).filter (fun p => p.2.isEmpty)).map Prod.fst).filter
    (fun i => decide (i ∉ lonelies gl))

/-- banquet.py line 90: the collection index minus lonelies and outsiders
(membership-level model of `Index.difference`). -/
def attendeesOf (gl : List (ℕ × List ℕ)) : List ℕ :=
  (gl.map Prod.fst).filter (fun i => decide (i ∉ lonelies gl) && decide (i ∉ outsiders gl))

/-- `tabling.unique()`: the distinct cluster labels in first-occurrence order. -/
def labelsOf (tb : List (ℕ × Int)) : List Int := uniq (tb.map Prod.snd)

/-- `tabling[tabling == table].index`: the ids carrying a given label. -/
def membersOf (tb : List (ℕ × Int)) (t : Int) : List ℕ :=
  (tb.filter (fun p => p.2 == t)).map Prod.fst

/-- banquet.py `is_tabling_allowable` (lines 57-76): for every non-noise label,
every member's co-members must all lie in that member's allowable-tablemates
list; noise (-1) is never checked. -/
def is_tabling_allowable (tb : List (ℕ × Int)) (atml : ℕ → List ℕ) : Bool :=
  ((labelsOf tb).filter (fun t => t != -1)).all (fun t =>
    (membersOf tb t).all (fun m =>
      ((membersOf tb t).filter (fun x => x != m)).all (fun x => decide (x ∈ atml m))))

/-- banquet.py lines 92-97: the epsilon-shrinking search loop. The Python loop
is unbounded; fuel makes the partiality explicit, `none` meaning the loop has
not yet accepted after that many iterations. -/
def searchLoop (clusterFn : ℚ → List (ℕ × Int)) (atml : ℕ → List ℕ)
    (eps eps_step : ℚ) : Nat → Option (List (ℕ × Int))
  | 0 => none
  | fuel + 1 =>
    let tb := clusterFn eps
    if is_tabling_allowable tb atml then some tb
    else searchLoop clusterFn atml (eps - eps_step) eps_step fuel

/-- The Banquet Table clique property: in every non-noise cluster, every pair
of distinct members is adjacent in the tablemate adjacency. -/
def cliqueOK (tb : List (ℕ × Int)) (atml : ℕ → List ℕ) : Prop :=
  ∀ t : Int, t ≠ -1 → ∀ m ∈ membersOf tb t, ∀ x ∈ membersOf tb t, x ≠ m → x ∈ atml m

/-- `np.mean` over a list of rationals: NaN on the empty list (modeled `none`),
otherwise the arithmetic mean. -/
def meanQ (l : List ℚ) : Option ℚ :=
  if l.isEmpty then none else some (l.sum / (l.length : ℚ))

/-- An unguarded Python division: ZeroDivisionError when the denominator is
zero, otherwise the quotient. -/
def pydiv (a b : ℚ) : Except String ℚ :=
  if b = 0 then .error ("ZeroDivisionError") else .ok (a / b)

/-- The per-cluster body of `intra_table_sharing_ratio` (banquet.py lines
144-153): pool the members' guest lists, count distinct guests and distinct
guests occurring more than once, and take the guarded quotient. -/
def clusterSharedFrac (tb : List (ℕ × Int)) (gl : List (ℕ × List ℕ)) (t : Int) : ℚ :=
  let all_guests := ((membersOf tb t).map (glLookup gl)).flatten
  let guest_counts := uniq all_guests
  let total_guests := guest_counts.length
  let shared_guests := (guest_counts.filter (fun g => decide (1 < all_guests.count g))).length
  if total_guests = 0 then 0 else (shared_guests : ℚ) / (total_guests : ℚ)

/-- banquet.py `intra_table_sharing_ratio` (lines 134-155): the `np.mean` of
the per-cluster shared fractions (`none` models the NaN of a mean over an
empty label list). -/
def intra_table_sharing_ratio (tb : List (ℕ × Int)) (gl : List (ℕ × List ℕ)) :
    Option ℚ :=
  meanQ ((labelsOf tb).map (clusterSharedFrac tb gl))

/-- `set.union(*[set(guest_lists[member]) for member in table_members])`:
the deduplicated pooled guest list of one cluster. -/
def tableGuestSet (tb : List (ℕ × Int)) (gl : List (ℕ × List ℕ)) (t : Int) : List ℕ :=
  uniq (((membersOf tb t).map (glLookup gl)).flatten)

/-- banquet.py `inter_table_sharing_ratio` (lines 157-180): pool the
per-cluster deduplicated guest sets and take the guarded quotient of guests
occurring in more than one cluster over all distinct guests. -/
def inter_table_sharing_ratio (tb : List (ℕ × Int)) (gl : List (ℕ × List ℕ)) : ℚ :=
  let all_guests := ((labelsOf tb).map (tableGuestSet tb gl)).flatten
  let guest_counts := uniq all_guests
  let total_guests := guest_counts.length
  let shared_guests := (guest_counts.filter (fun g => decide (1 < all_guests.count g))).length
  if total_guests = 0 then 0 else (shared_guests : ℚ) / (total_guests : ℚ)

/-- banquet.py `guest_sharing_differential` (lines 182-188). -/
def guest_sharing_differential (a b : ℚ) : ℚ := a - b

/-- The ordered index pairs i < j of the Python double loop
`for i in range(n): for j in range(i+1, n)`, realized on list elements. -/
def pairsUpper {α : Type} : List α → List (α × α)
  | [] => []
  | a :: rest => (rest.map (fun b => (a, b))) ++ pairsUpper rest

/-- `len(set(s).intersection(set(t)))` for a duplicate-free s. -/
def interCount (s t : List ℕ) : ℕ := (s.filter (fun x => decide (x ∈ t))).length

/-- `len(set(s).union(set(t)))`. -/
def unionCount (s t : List ℕ) : ℕ := (uniq (s ++ t)).length

/-- The Python accumulation loop appending one ratio per pair: the first
raising division aborts the whole computation. -/
def collectRatios {α : Type} (f : α → Except String ℚ) : List α → Except String (List ℚ)
  | [] => .ok []
  | a :: l => do
    let c ← f a
    let cs ← collectRatios f l
    .ok (c :: cs)

/-- banquet.py `overlap_coefficient` (lines 190-214): per unordered cluster
pair, |intersection| divided (unguarded) by the smaller set size; then the
`np.mean` of the pair values (NaN, i.e. `none`, when there are no pairs). -/
def overlap_coefficient (tb : List (ℕ × Int)) (gl : List (ℕ × List ℕ)) :
    Except String (Option ℚ) := do
  let sets := (labelsOf tb).map (tableGuestSet tb gl)
  let coeffs ← collectRatios
    (fun p => pydiv ((interCount p.1 p.2 : ℕ) : ℚ) ((min p.1.length p.2.length : ℕ) : ℚ))
    (pairsUpper sets)
  .ok (meanQ coeffs)

/-- banquet.py `jaccard_index` (lines 216-240): per unordered cluster pair,
|intersection| divided (unguarded) by |union|; then the `np.mean`. -/
def jaccard_index (tb : List (ℕ × Int)) (gl : List (ℕ × List ℕ)) :
    Except String (Option ℚ) := do
  let sets := (labelsOf tb).map (tableGuestSet tb gl)
  let inds ← collectRatios
    (fun p => pydiv ((interCount p.1 p.2 : ℕ) : ℚ) ((unionCount p.1 p.2 : ℕ) : ℚ))
    (pairsUpper sets)
  .ok (meanQ inds)

/-- banquet.py `unique_vs_shared_guests` (lines 242-275): each cluster
contributes its deduplicated guest set once; guests occurring in more than one
cluster's set are shared; guarded quotient over all distinct guests. -/
def unique_vs_shared_guests (tb : List (ℕ × Int)) (gl : List (ℕ × List ℕ)) : ℚ :=
  let occurrences := ((labelsOf tb).map (tableGuestSet tb gl)).flatten
  let all_guests := uniq occurrences
  let shared := (all_guests.filter (fun g => decide (1 < occurrences.count g))).length
  if all_guests.length = 0 then 0 else (shared : ℚ) / (all_guests.length : ℚ)

/-- A label of the full tabling Series built in banquet.py lines 99-102:
an integer DBSCAN label, or the string label lonely / outsider. -/
inductive BanquetLabel where
  | table : Int → BanquetLabel
  | lonely : BanquetLabel
  | outsider : BanquetLabel
deriving DecidableEq

/-- banquet.py `compute_tableable_percentage` (lines 124-127); the division by
the total collection size is unguarded. -/
def compute_tableable_percentage (t : List BanquetLabel) : Except String ℚ :=
  pydiv ((t.length : ℚ) -
      (((t.filter (fun x => decide (x = BanquetLabel.lonely))).length +
        (t.filter (fun x => decide (x = BanquetLabel.outsider))).length : ℕ) : ℚ))
    ((t.length : ℚ))

/-- banquet.py `compute_noise_percentage` (lines 129-130); unguarded division
by the number of labels submitted to clustering. -/
def compute_noise_percentage (labels : List Int) : Except String ℚ :=
  pydiv (((labels.filter (fun x => x == -1)).length : ℕ) : ℚ) ((labels.length : ℚ))

/-- Python `round` to an integer, half to even. (Python rounds the binary
float; on the rational model we round the exact value.) -/
def roundHalfEven (q : ℚ) : ℤ :=
  let f := ⌊q⌋
  let r := q - (f : ℚ)
  if r < 1 / 2 then f
  else if 1 / 2 < r then f + 1
  else if f % 2 = 0 then f else f + 1

/-- `round(x, 3)`. -/
def round3 (q : ℚ) : ℚ := ((roundHalfEven (q * 1000) : ℤ) : ℚ) / 1000

/-- The metrics DataFrame consumed by `find_inflection_points`: the d column
plus the metric columns, positionally aligned. -/
structure MetricsFrame where
  dvals : List ℚ
  cols : List (List ℚ)

/-- The flags one metric column contributes (banquet.py lines 289-292): for
each i from 1, when the column rises by strictly more than the threshold
between rows i-1 and i, record round(d_i, 3). -/
def colFlags (ds : List ℚ) (col : List ℚ) (th : ℚ) : List ℚ :=
  (List.range ds.length).filterMap (fun i =>
    if 1 ≤ i ∧ th < col.getD i 0 - col.getD (i - 1) 0 then some (round3 (ds.getD i 0))
    else none)

/-- banquet.py `find_inflection_points` (lines 281-295): concatenate every
column's flags, then keep exactly the flags whose total multiplicity in that
concatenation exceeds one. -/
def find_inflection_points (mf : MetricsFrame) (th : ℚ) : List ℚ :=
  let pts := (mf.cols.map (fun c => colFlags mf.dvals c th)).flatten
  pts.filter (fun x => decide (1 < pts.count x))

/-- Modelled from the spec (claim C7 wording) for refinement comparison, not
from the source: keep exactly the flags produced by more than one distinct
metric column. -/
def spec_inflection_points (mf : MetricsFrame) (th : ℚ) : List ℚ :=
  let pts := (mf.cols.map (fun c => colFlags mf.dvals c th)).flatten
  pts.filter (fun x =>
    decide (1 < (mf.cols.filter (fun c => decide (x ∈ colFlags mf.dvals c th))).length))

/-! ### Basic lemmas about the embedding's helper functions -/

theorem mem_uniqAux {α : Type} [DecidableEq α] (x : α) :
    ∀ (l seen : List α), x ∈ uniqAux seen l ↔ x ∈ l ∧ x ∉ seen := by
  intro l
  induction l with
  | nil => intro seen; simp [uniqAux]
  | cons a l ih =>
    intro seen
    by_cases ha : a ∈ seen
    · rw [uniqAux, if_pos ha, ih]
      constructor
      · rintro ⟨h1, h2⟩; exact ⟨List.mem_cons_of_mem _ h1, h2⟩
      · rintro ⟨h1, h2⟩
        rcases List.mem_cons.mp h1 with rfl | h1
        · exact absurd ha h2
        · exact ⟨h1, h2⟩
    · rw [uniqAux, if_neg ha]
      constructor
      · intro h
        rcases List.mem_cons.mp h with rfl | h
        · exact ⟨List.mem_cons_self .., ha⟩
        · obtain ⟨h1, h2⟩ := (ih (a :: seen)).mp h
          exact ⟨List.mem_cons_of_mem _ h1,
            fun hc => h2 (List.mem_cons_of_mem _ hc)⟩
      · rintro ⟨h1, h2⟩
        rcases List.mem_cons.mp h1 with rfl | h1
        · exact List.mem_cons_self ..
        · by_cases hxa : x = a
          · subst hxa; exact List.mem_cons_self ..
          · exact List.mem_cons_of_mem _ ((ih (a :: seen)).mpr
              ⟨h1, fun hc => (List.mem_cons.mp hc).elim hxa h2⟩)

theorem mem_uniq {α : Type} [DecidableEq α] {x : α} {l : List α} :
    x ∈ uniq l ↔ x ∈ l := by
  rw [uniq, mem_uniqAux]; simp

theorem nodup_uniqAux {α : Type} [DecidableEq α] :
    ∀ (l seen : List α), (uniqAux seen l).Nodup := by
  intro l
  induction l with
  | nil => intro seen; simp [uniqAux]
  | cons a l ih =>
    intro seen
    by_cases ha : a ∈ seen
    · rw [uniqAux, if_pos ha]; exact ih seen
    · rw [uniqAux, if_neg ha]
      refine List.nodup_cons.mpr ⟨?_, ih (a :: seen)⟩
      intro hc
      exact ((mem_uniqAux a l (a :: seen)).mp hc).2 (List.mem_cons_self ..)

theorem nodup_uniq {α : Type} [DecidableEq α] (l : List α) : (uniq l).Nodup :=
  nodup_uniqAux l []

theorem uniq_ne_nil {α : Type} [DecidableEq α] {l : List α} (h : l ≠ []) :
    uniq l ≠ [] := by
  obtain ⟨x, hx⟩ := List.exists_mem_of_ne_nil l h
  exact List.ne_nil_of_mem (mem_uniq.mpr hx)

/-- In an association list with duplicate-free keys, entries with equal keys
are equal. -/
theorem keyInj {β : Type} (l : List (ℕ × β)) (h : (l.map Prod.fst).Nodup) :
    ∀ p ∈ l, ∀ q ∈ l, p.1 = q.1 → p = q := by
  induction l with
  | nil => simp
  | cons a t ih =>
    rw [List.map_cons, List.nodup_cons] at h
    intro p hp q hq hpq
    rcases List.mem_cons.mp hp with hpa | hp <;> rcases List.mem_cons.mp hq with hqa | hq
    · rw [hpa, hqa]
    · exfalso
      have : q.1 ∈ t.map Prod.fst := List.mem_map_of_mem Prod.fst hq
      rw [← hpq, hpa] at this
      exact h.1 this
    · exfalso
      have : p.1 ∈ t.map Prod.fst := List.mem_map_of_mem Prod.fst hp
      rw [hpq, hqa] at this
      exact h.1 this
    · exact ih h.2 p hp q hq hpq

theorem glLookup_eq {gl : List (ℕ × List ℕ)} (h : (gl.map Prod.fst).Nodup)
    {p : ℕ × List ℕ} (hp : p ∈ gl) : glLookup gl p.1 = p.2 := by
  induction gl with
  | nil => simp at hp
  | cons a t ih =>
    rw [List.map_cons, List.nodup_cons] at h
    rcases List.mem_cons.mp hp with rfl | hp
    · simp [glLookup, List.find?]
    · have hne : a.1 ≠ p.1 := fun hc => h.1 (hc ▸ List.mem_map_of_mem Prod.fst hp)
      have : glLookup (a :: t) p.1 = glLookup t p.1 := by
        simp [glLookup, List.find?, beq_eq_false_iff_ne.mpr hne]
      rw [this]; exact ih h.2 hp

theorem mem_membersOf {tb : List (ℕ × Int)} {t : Int} {x : ℕ} :
    x ∈ membersOf tb t ↔ (x, t) ∈ tb := by
  simp only [membersOf, List.mem_map, List.mem_filter, beq_iff_eq]
  constructor
  · rintro ⟨p, ⟨hp, h2⟩, h1⟩
    have : p = (x, t) := Prod.ext h1 h2
    exact this ▸ hp
  · intro h; exact ⟨(x, t), ⟨h, rfl⟩, rfl⟩

theorem mem_labelsOf {tb : List (ℕ × Int)} {t : Int} :
    t ∈ labelsOf tb ↔ ∃ p ∈ tb, p.2 = t := by
  rw [labelsOf, mem_uniq]; simp [List.mem_map]

/-! ### C1: the validator accepts exactly the clique-valid tablings -/

theorem allowable_iff_clique (tb : List (ℕ × Int)) (atml : ℕ → List ℕ) :
    is_tabling_allowable tb atml = true ↔ cliqueOK tb atml := by
  unfold is_tabling_allowable cliqueOK
  simp only [List.all_eq_true, List.mem_filter, bne_iff_ne, ne_eq,
    decide_eq_true_eq]
  constructor
  · intro h t ht m hm x hx hxm
    have htl : t ∈ labelsOf tb := mem_labelsOf.mpr ⟨(m, t), mem_membersOf.mp hm, rfl⟩
    exact h t ⟨htl, ht⟩ m hm x ⟨hx, hxm⟩
  · rintro h t ⟨_, ht⟩ m hm x ⟨hx, hxm⟩
    exact h t ht m hm x hx hxm

/-- C1: a tabling is accepted by `is_tabling_allowable` iff every non-noise
cluster is a clique in the tablemate adjacency (for every member m, the other
members all lie in m's tablemate list); noise-labeled ids (-1) are never
checked; and consequently any tabling returned by the search loop satisfies
the clique property for every non-noise cluster. -/
theorem c1_validator_clique (clusterFn : ℚ → List (ℕ × Int)) (atml : ℕ → List ℕ)
    (eps eps_step : ℚ) (fuel : Nat) (tb : List (ℕ × Int))
    (h : searchLoop clusterFn atml eps eps_step fuel = some tb) :
    (∀ tb2, ( is_tabling_allowable tb2 atml = true ↔ cliqueOK tb2 atml)) ∧
      cliqueOK tb atml := by
  refine ⟨fun tb2 => allowable_iff_clique tb2 atml, ?_⟩
  induction fuel generalizing eps with
  | zero => simp [searchLoop] at h
  | succ n ih =>
    rw [searchLoop] at h
    split at h
    · next hc =>
        obtain rfl := Option.some.inj h
        exact (allowable_iff_clique _ atml).mp hc
    · next hc => exact ih _ h

/-- Witness for C1: a concrete two-member cluster accepted by a one-step
search, whose clique property follows by applying the theorem. -/
theorem c1_validator_clique_witness :
    (∀ tb2, ( is_tabling_allowable tb2 (fun m => if m = 0 then [1] else [0]) = true ↔
        cliqueOK tb2 (fun m => if m = 0 then [1] else [0]))) ∧
      cliqueOK [((0 : ℕ), (0 : Int)), (1, 0)] (fun m => if m = 0 then [1] else [0]) :=
  c1_validator_clique (fun _ => [(0, 0), (1, 0)]) (fun m => if m = 0 then [1] else [0])
    (164 / 1000) (1 / 10000) 1 [(0, 0), (1, 0)] (by decide)

/-! ### C2 and C8: the guest relation is a strict Euclidean threshold -/

theorem except_bind_ok {α β : Type} (a : α) (f : α → Except String β) :
    (Except.ok a >>= f) = f a := rfl

theorem except_bind_error {α β : Type} (e : String) (f : α → Except String β) :
    ((Except.error e : Except String α) >>= f) = Except.error e := rfl

theorem distLt_iff {v w : List ℚ} {d : ℚ} :
    distLt v w d = true ↔ 0 < d ∧ sqDist v w < d * d := by
  simp [distLt]

theorem mem_guestListFor {refRows : List (ℕ × List ℚ)} {v : List ℚ} {d : ℚ} {g : ℕ} :
    g ∈ guestListFor refRows v d ↔
      ∃ q ∈ refRows, distLt v q.2 d = true ∧ q.1 = g := by
  simp only [guestListFor, List.mem_map, List.mem_filter]
  constructor
  · rintro ⟨q, ⟨hq, hd⟩, h1⟩; exact ⟨q, hq, hd, h1⟩
  · rintro ⟨q, hq, hd, h1⟩; exact ⟨q, ⟨hq, hd⟩, h1⟩

theorem get_guest_lists_ok {coll ref : Frame} {cs : List String} {d : ℚ}
    {gl : List (ℕ × List ℕ)} {collRows refRows : List (ℕ × List ℚ)}
    (hc : frameRows coll cs = .ok collRows)
    (hr : frameRows ref cs = .ok refRows)
    (hgl : get_guest_lists coll ref cs d = .ok gl) :
    gl = collRows.map (fun p => (p.1, guestListFor refRows p.2 d)) := by
  unfold get_guest_lists at hgl
  rw [hc, except_bind_ok, hr, except_bind_ok] at hgl
  exact (Except.ok.inj hgl).symm

/-- C2: for every attendee row and reference row sharing the feature axes, the
reference id is in the attendee's guest list iff the Euclidean distance is
strictly below d (on rationals: d is positive and the squared distance is
below d squared); a guest at distance exactly d is excluded. -/
theorem c2_strict_threshold (coll ref : Frame) (cs : List String) (d : ℚ)
    (gl : List (ℕ × List ℕ)) (collRows refRows : List (ℕ × List ℚ))
    (hgl : get_guest_lists coll ref cs d = .ok gl)
    (hc : frameRows coll cs = .ok collRows)
    (hr : frameRows ref cs = .ok refRows)
    (hnd : (refRows.map Prod.fst).Nodup) :
    ∀ p ∈ collRows,
      (p.1, guestListFor refRows p.2 d) ∈ gl ∧
      ∀ q ∈ refRows,
        (q.1 ∈ guestListFor refRows p.2 d ↔ (0 < d ∧ sqDist p.2 q.2 < d * d)) ∧
        (sqDist p.2 q.2 = d * d → q.1 ∉ guestListFor refRows p.2 d) := by
  intro p hp
  have hgl2 := get_guest_lists_ok hc hr hgl
  have hchar : ∀ q ∈ refRows,
      (q.1 ∈ guestListFor refRows p.2 d ↔ (0 < d ∧ sqDist p.2 q.2 < d * d)) := by
    intro q hq
    rw [mem_guestListFor]
    constructor
    · rintro ⟨r, hrmem, hdist, hr1⟩
      have hrq : r = q := keyInj refRows hnd r hrmem q hq hr1
      rw [hrq] at hdist
      exact distLt_iff.mp hdist
    · intro hcond
      exact ⟨q, hq, distLt_iff.mpr hcond, rfl⟩
  refine ⟨?_, fun q hq => ⟨hchar q hq, fun heq hmem => ?_⟩⟩
  · rw [hgl2]; exact List.mem_map_of_mem _ hp
  · have := ((hchar q hq).mp hmem).2
    rw [heq] at this
    exact lt_irrefl _ this

/-- Witness for C2: one attendee at the origin, guests at distance 1/2 and 2,
threshold 1; the near guest is included, and the boundary case is excluded. -/
theorem c2_strict_threshold_witness :
    (((0 : ℕ), guestListFor [((1 : ℕ), [(1 : ℚ)/2]), ((2 : ℕ), [(2 : ℚ)])] [(0 : ℚ)] 1) ∈
        [((0 : ℕ), [(1 : ℕ)])]) ∧
    (((1 : ℕ) ∈ guestListFor [((1 : ℕ), [(1 : ℚ)/2]), ((2 : ℕ), [(2 : ℚ)])] [(0 : ℚ)] 1) ↔
        (0 < (1 : ℚ) ∧ sqDist [(0 : ℚ)] [(1 : ℚ)/2] < 1 * 1)) ∧
    (sqDist [(0 : ℚ)] [(1 : ℚ)/2] = 1 * 1 →
        (1 : ℕ) ∉ guestListFor [((1 : ℕ), [(1 : ℚ)/2]), ((2 : ℕ), [(2 : ℚ)])] [(0 : ℚ)] 1) := by
  have h := c2_strict_threshold ⟨[0], [("x", [0])]⟩ ⟨[1, 2], [("x", [1/2, 2])]⟩ ["x"] 1
    [(0, [1])] [(0, [0])] [(1, [1/2]), (2, [2])]
    (by norm_num [get_guest_lists, frameRows, selectCols, colLookup, rowAt, guestListFor,
      distLt, sqDist, List.range_succ, List.filter, except_bind_ok])
    (by norm_num [frameRows, selectCols, colLookup, rowAt, List.range_succ, except_bind_ok])
    (by norm_num [frameRows, selectCols, colLookup, rowAt, List.range_succ, except_bind_ok])
    (by decide)
  have h2 := h (0, [0]) (by simp)
  exact ⟨h2.1, h2.2 (1, [1/2]) (by simp)⟩

/-! ### C3: the tablemate graph -/

theorem intersects_iff {a b : List ℕ} : intersects a b = true ↔ ∃ g, g ∈ a ∧ g ∈ b := by
  simp [intersects]

theorem intersects_comm (a b : List ℕ) : intersects a b = intersects b a := by
  by_cases h : intersects a b = true
  · obtain ⟨g, hga, hgb⟩ := intersects_iff.mp h
    rw [h, (intersects_iff.mpr ⟨g, hgb, hga⟩ : intersects b a = true)]
  · have h2 : ¬ intersects b a = true := by
      intro hc
      obtain ⟨g, hgb, hga⟩ := intersects_iff.mp hc
      exact h (intersects_iff.mpr ⟨g, hga, hgb⟩)
    rw [Bool.not_eq_true] at h h2
    rw [h, h2]

theorem mem_tablematesFor {gl : List (ℕ × List ℕ)} {i : ℕ} {gi : List ℕ} {j : ℕ} :
    j ∈ tablematesFor gl i gi ↔
      ∃ q ∈ gl, q.1 ≠ i ∧ intersects gi q.2 = true ∧ q.1 = j := by
  simp only [tablematesFor, List.mem_map, List.mem_filter, Bool.and_eq_true,
    decide_eq_true_eq]
  constructor
  · rintro ⟨q, ⟨hq, hne, hint⟩, h1⟩; exact ⟨q, hq, hne, hint, h1⟩
  · rintro ⟨q, hq, hne, hint, h1⟩; exact ⟨q, ⟨hq, hne, hint⟩, h1⟩

/-- C3: in the tablemate graph built from a guest relation with duplicate-free
ids, a distinct attendee j is in i's tablemate list iff their guest sets
intersect; no attendee is its own tablemate; and the adjacency is symmetric. -/
theorem c3_tablemate_graph (gl : List (ℕ × List ℕ)) (hnd : (gl.map Prod.fst).Nodup) :
    ∀ p ∈ gl,
      ((p.1, tablematesFor gl p.1 p.2) ∈ get_allowable_tablemates_lists gl) ∧
      p.1 ∉ tablematesFor gl p.1 p.2 ∧
      ∀ q ∈ gl, q.1 ≠ p.1 →
        ((q.1 ∈ tablematesFor gl p.1 p.2 ↔ ∃ g, g ∈ p.2 ∧ g ∈ q.2) ∧
         (q.1 ∈ tablematesFor gl p.1 p.2 ↔ p.1 ∈ tablematesFor gl q.1 q.2)) := by
  have hchar : ∀ s ∈ gl, ∀ r ∈ gl, r.1 ≠ s.1 →
      (r.1 ∈ tablematesFor gl s.1 s.2 ↔ intersects s.2 r.2 = true) := by
    intro s _ r hrr hne
    rw [mem_tablematesFor]
    constructor
    · rintro ⟨u, hu, _, hint, hur⟩
      have hur2 : u = r := keyInj gl hnd u hu r hrr hur
      rw [hur2] at hint
      exact hint
    · intro hint
      exact ⟨r, hrr, hne, hint, rfl⟩
  intro p hp
  refine ⟨List.mem_map_of_mem _ hp, ?_, ?_⟩
  · intro hmem
    obtain ⟨r, _, hne, _, hr1⟩ := mem_tablematesFor.mp hmem
    exact hne hr1
  · intro q hq hqp
    constructor
    · rw [hchar p hp q hq hqp]
      exact intersects_iff
    · rw [hchar p hp q hq hqp, hchar q hq p hp (fun hc => hqp hc.symm),
        intersects_comm]

/-- Witness for C3: three attendees with guest lists [5], [5,6], [6]; 0 and 1
are tablemates through the shared guest 5. -/
theorem c3_tablemate_graph_witness :
    (((0 : ℕ), tablematesFor [((0 : ℕ), [(5 : ℕ)]), (1, [5, 6]), (2, [6])] 0 [5]) ∈
        get_allowable_tablemates_lists [((0 : ℕ), [(5 : ℕ)]), (1, [5, 6]), (2, [6])]) ∧
    (0 : ℕ) ∉ tablematesFor [((0 : ℕ), [(5 : ℕ)]), (1, [5, 6]), (2, [6])] 0 [5] ∧
    (((1 : ℕ) ∈ tablematesFor [((0 : ℕ), [(5 : ℕ)]), (1, [5, 6]), (2, [6])] 0 [5] ↔
        ∃ g, g ∈ [(5 : ℕ)] ∧ g ∈ [(5 : ℕ), 6]) ∧
     ((1 : ℕ) ∈ tablematesFor [((0 : ℕ), [(5 : ℕ)]), (1, [5, 6]), (2, [6])] 0 [5] ↔
        (0 : ℕ) ∈ tablematesFor [((0 : ℕ), [(5 : ℕ)]), (1, [5, 6]), (2, [6])] 1 [5, 6])) := by
  have h := c3_tablemate_graph [((0 : ℕ), [(5 : ℕ)]), (1, [5, 6]), (2, [6])] (by decide)
    (0, [5]) (by decide)
  exact ⟨h.1, h.2.1, h.2.2 (1, [5, 6]) (by decide) (by decide)⟩

/-! ### C4: lonely / outsider / clustered classification -/

theorem mem_lonelies {gl : List (ℕ × List ℕ)} (hnd : (gl.map Prod.fst).Nodup)
    {p : ℕ × List ℕ} (hp : p ∈ gl) : p.1 ∈ lonelies gl ↔ p.2 = [] := by
  simp only [lonelies, List.mem_map, List.mem_filter, List.isEmpty_iff]
  constructor
  · rintro ⟨r, ⟨hr, hre⟩, h1⟩
    have hrp : r = p := keyInj gl hnd r hr p hp h1
    rw [hrp] at hre
    exact hre
  · intro h; exact ⟨p, ⟨hp, h⟩, rfl⟩

theorem atml_map_fst (gl : List (ℕ × List ℕ)) :
    (get_allowable_tablemates_lists gl).map Prod.fst = gl.map Prod.fst := by
  simp [get_allowable_tablemates_lists, List.map_map, Function.comp]

theorem tablematesFor_nil_of_empty (gl : List (ℕ × List ℕ)) (i : ℕ) :
    tablematesFor gl i [] = [] := by
  simp [tablematesFor, intersects]

theorem mem_atml_empty {gl : List (ℕ × List ℕ)} (hnd : (gl.map Prod.fst).Nodup)
    {p : ℕ × List ℕ} (hp : p ∈ gl) :
    p.1 ∈ (((get_allowable_tablemates_lists gl).filter
        (fun r => r.2.isEmpty)).map Prod.fst) ↔
      tablematesFor gl p.1 p.2 = [] := by
  have hnd2 : ((get_allowable_tablemates_lists gl).map Prod.fst).Nodup := by
    rw [atml_map_fst]; exact hnd
  have hpin : (p.1, tablematesFor gl p.1 p.2) ∈ get_allowable_tablemates_lists gl :=
    List.mem_map_of_mem _ hp
  simp only [List.mem_map, List.mem_filter, List.isEmpty_iff]
  constructor
  · rintro ⟨r, ⟨hr, hre⟩, h1⟩
    have hrp : r = (p.1, tablematesFor gl p.1 p.2) :=
      keyInj (get_allowable_tablemates_lists gl) hnd2 r hr _ hpin h1
    rw [hrp] at hre
    exact hre
  · intro h
    exact ⟨(p.1, tablematesFor gl p.1 p.2), ⟨hpin, h⟩, rfl⟩

theorem mem_outsiders {gl : List (ℕ × List ℕ)} (hnd : (gl.map Prod.fst).Nodup)
    {p : ℕ × List ℕ} (hp : p ∈ gl) :
    p.1 ∈ outsiders gl ↔ (tablematesFor gl p.1 p.2 = [] ∧ p.1 ∉ lonelies gl) := by
  simp only [outsiders, List.mem_filter, decide_eq_true_eq]
  rw [mem_atml_empty hnd hp]

theorem mem_attendeesOf {gl : List (ℕ × List ℕ)} {i : ℕ} :
    i ∈ attendeesOf gl ↔
      i ∈ gl.map Prod.fst ∧ i ∉ lonelies gl ∧ i ∉ outsiders gl := by
  simp [attendeesOf, List.mem_filter, and_assoc]

/-- C4: lonely ids are exactly those with empty guest lists; outsiders exactly
those with nonempty guest lists but empty tablemate lists; attendees the rest;
the three classes are pairwise disjoint and exhaust the collection index. -/
theorem c4_classification (gl : List (ℕ × List ℕ)) (hnd : (gl.map Prod.fst).Nodup) :
    (∀ p ∈ gl,
      (p.1 ∈ lonelies gl ↔ p.2 = []) ∧
      (p.1 ∈ outsiders gl ↔ (p.2 ≠ [] ∧ tablematesFor gl p.1 p.2 = [])) ∧
      (p.1 ∈ attendeesOf gl ↔ (p.1 ∉ lonelies gl ∧ p.1 ∉ outsiders gl)) ∧
      ((p.1 ∈ lonelies gl ∨ p.1 ∈ outsiders gl ∨ p.1 ∈ attendeesOf gl) ∧
       ¬(p.1 ∈ lonelies gl ∧ p.1 ∈ outsiders gl) ∧
       ¬(p.1 ∈ lonelies gl ∧ p.1 ∈ attendeesOf gl) ∧
       ¬(p.1 ∈ outsiders gl ∧ p.1 ∈ attendeesOf gl))) ∧
    (∀ i : ℕ, (i ∈ lonelies gl ∨ i ∈ outsiders gl ∨ i ∈ attendeesOf gl) →
      i ∈ gl.map Prod.fst) := by
  constructor
  · intro p hp
    have hl := mem_lonelies hnd hp
    have ho := mem_outsiders hnd hp
    have ha : p.1 ∈ attendeesOf gl ↔ (p.1 ∉ lonelies gl ∧ p.1 ∉ outsiders gl) := by
      rw [mem_attendeesOf]
      constructor
      · rintro ⟨_, h2, h3⟩; exact ⟨h2, h3⟩
      · rintro ⟨h2, h3⟩; exact ⟨List.mem_map_of_mem _ hp, h2, h3⟩
    refine ⟨hl, ?_, ha, ?_⟩
    · rw [ho]
      constructor
      · rintro ⟨htm, hnl⟩
        exact ⟨fun hc => hnl (hl.mpr hc), htm⟩
      · rintro ⟨hne, htm⟩
        exact ⟨htm, fun hc => hne (hl.mp hc)⟩
    · refine ⟨?_, ?_, ?_, ?_⟩
      · by_cases h1 : p.1 ∈ lonelies gl
        · exact Or.inl h1
        · by_cases h2 : p.1 ∈ outsiders gl
          · exact Or.inr (Or.inl h2)
          · exact Or.inr (Or.inr (ha.mpr ⟨h1, h2⟩))
      · rintro ⟨h1, h2⟩; exact ((ho.mp h2).2) h1
      · rintro ⟨h1, h2⟩; exact ((ha.mp h2).1) h1
      · rintro ⟨h1, h2⟩; exact ((ha.mp h2).2) h1
  · intro i hi
    rcases hi with hi | hi | hi
    · simp only [lonelies, List.mem_map, List.mem_filter] at hi
      obtain ⟨r, ⟨hr, _⟩, h1⟩ := hi
      exact h1 ▸ List.mem_map_of_mem _ hr
    · simp only [outsiders, List.mem_filter] at hi
      have := hi.1
      simp only [List.mem_map, List.mem_filter] at this
      obtain ⟨r, ⟨hr, _⟩, h1⟩ := this
      have : r.1 ∈ (get_allowable_tablemates_lists gl).map Prod.fst :=
        List.mem_map_of_mem _ hr
      rw [atml_map_fst] at this
      exact h1 ▸ this
    · exact (mem_attendeesOf.mp hi).1

/-- Witness for C4 at a concrete collection: id 0 is lonely, id 1 has a guest
but no tablemate (outsider), ids 2 and 3 are clustered attendees. -/
theorem c4_classification_witness :
    (((1 : ℕ) ∈ lonelies [((0 : ℕ), ([] : List ℕ)), (1, [9]), (2, [5]), (3, [5])] ↔
        [(9 : ℕ)] = []) ∧
     ((1 : ℕ) ∈ outsiders [((0 : ℕ), ([] : List ℕ)), (1, [9]), (2, [5]), (3, [5])] ↔
        ([(9 : ℕ)] ≠ [] ∧
         tablematesFor [((0 : ℕ), ([] : List ℕ)), (1, [9]), (2, [5]), (3, [5])] 1 [9] = [])) ∧
     ((1 : ℕ) ∈ attendeesOf [((0 : ℕ), ([] : List ℕ)), (1, [9]), (2, [5]), (3, [5])] ↔
        ((1 : ℕ) ∉ lonelies [((0 : ℕ), ([] : List ℕ)), (1, [9]), (2, [5]), (3, [5])] ∧
         (1 : ℕ) ∉ outsiders [((0 : ℕ), ([] : List ℕ)), (1, [9]), (2, [5]), (3, [5])])) ∧
     (((1 : ℕ) ∈ lonelies [((0 : ℕ), ([] : List ℕ)), (1, [9]), (2, [5]), (3, [5])] ∨
       (1 : ℕ) ∈ outsiders [((0 : ℕ), ([] : List ℕ)), (1, [9]), (2, [5]), (3, [5])] ∨
       (1 : ℕ) ∈ attendeesOf [((0 : ℕ), ([] : List ℕ)), (1, [9]), (2, [5]), (3, [5])]) ∧
      ¬((1 : ℕ) ∈ lonelies [((0 : ℕ), ([] : List ℕ)), (1, [9]), (2, [5]), (3, [5])] ∧
        (1 : ℕ) ∈ outsiders [((0 : ℕ), ([] : List ℕ)), (1, [9]), (2, [5]), (3, [5])]) ∧
      ¬((1 : ℕ) ∈ lonelies [((0 : ℕ), ([] : List ℕ)), (1, [9]), (2, [5]), (3, [5])] ∧
        (1 : ℕ) ∈ attendeesOf [((0 : ℕ), ([] : List ℕ)), (1, [9]), (2, [5]), (3, [5])]) ∧
      ¬((1 : ℕ) ∈ outsiders [((0 : ℕ), ([] : List ℕ)), (1, [9]), (2, [5]), (3, [5])] ∧
        (1 : ℕ) ∈ attendeesOf [((0 : ℕ), ([] : List ℕ)), (1, [9]), (2, [5]), (3, [5])]))) ∧
    ((2 : ℕ) ∈ [((0 : ℕ), ([] : List ℕ)), (1, [9]), (2, [5]), (3, [5])].map Prod.fst) := by
  have h := c4_classification [((0 : ℕ), ([] : List ℕ)), (1, [9]), (2, [5]), (3, [5])]
    (by decide)
  exact ⟨h.1 (1, [9]) (by decide), h.2 2 (Or.inr (Or.inr (by decide)))⟩

/-! ### C8: guest sets grow monotonically with the threshold -/

theorem distLt_mono {v w : List ℚ} {d1 d2 : ℚ} (hd : d1 ≤ d2)
    (h : distLt v w d1 = true) : distLt v w d2 = true := by
  obtain ⟨h0, hsq⟩ := distLt_iff.mp h
  refine distLt_iff.mpr ⟨lt_of_lt_of_le h0 hd, lt_of_lt_of_le hsq ?_⟩
  have h0le : (0 : ℚ) ≤ d1 := le_of_lt h0
  exact mul_le_mul hd hd h0le (le_trans h0le hd)

/-- C8: for the same frames and feature axes, and thresholds d1 < d2, each
attendee's guest list at d1 is a subset of its guest list at d2. -/
theorem c8_threshold_monotone (coll ref : Frame) (cs : List String) (d1 d2 : ℚ)
    (gl1 gl2 : List (ℕ × List ℕ)) (collRows refRows : List (ℕ × List ℚ))
    (h1 : get_guest_lists coll ref cs d1 = .ok gl1)
    (h2 : get_guest_lists coll ref cs d2 = .ok gl2)
    (hc : frameRows coll cs = .ok collRows)
    (hr : frameRows ref cs = .ok refRows)
    (hd : d1 < d2) :
    ∀ p ∈ collRows,
      (p.1, guestListFor refRows p.2 d1) ∈ gl1 ∧
      (p.1, guestListFor refRows p.2 d2) ∈ gl2 ∧
      ∀ g ∈ guestListFor refRows p.2 d1, g ∈ guestListFor refRows p.2 d2 := by
  intro p hp
  refine ⟨?_, ?_, ?_⟩
  · rw [get_guest_lists_ok hc hr h1]; exact List.mem_map_of_mem _ hp
  · rw [get_guest_lists_ok hc hr h2]; exact List.mem_map_of_mem _ hp
  · intro g hg
    obtain ⟨q, hq, hdist, hq1⟩ := mem_guestListFor.mp hg
    exact mem_guestListFor.mpr ⟨q, hq, distLt_mono (le_of_lt hd) hdist, hq1⟩

/-- Witness for C8: one attendee at the origin, one guest at distance 1/2;
thresholds 3/4 < 1; the guest list [1] at 3/4 is contained in the one at 1. -/
theorem c8_threshold_monotone_witness :
    (((0 : ℕ), guestListFor [((1 : ℕ), [(1 : ℚ)/2])] [(0 : ℚ)] (3/4)) ∈
        [((0 : ℕ), [(1 : ℕ)])]) ∧
    (((0 : ℕ), guestListFor [((1 : ℕ), [(1 : ℚ)/2])] [(0 : ℚ)] 1) ∈
        [((0 : ℕ), [(1 : ℕ)])]) ∧
    ∀ g ∈ guestListFor [((1 : ℕ), [(1 : ℚ)/2])] [(0 : ℚ)] (3/4),
      g ∈ guestListFor [((1 : ℕ), [(1 : ℚ)/2])] [(0 : ℚ)] 1 := by
  have h := c8_threshold_monotone ⟨[0], [("x", [0])]⟩ ⟨[1], [("x", [1/2])]⟩ ["x"] (3/4) 1
    [(0, [1])] [(0, [1])] [(0, [0])] [(1, [1/2])]
    (by norm_num [get_guest_lists, frameRows, selectCols, colLookup, rowAt, guestListFor,
      distLt, sqDist, List.range_succ, List.filter, except_bind_ok])
    (by norm_num [get_guest_lists, frameRows, selectCols, colLookup, rowAt, guestListFor,
      distLt, sqDist, List.range_succ, List.filter, except_bind_ok])
    (by norm_num [frameRows, selectCols, colLookup, rowAt, List.range_succ, except_bind_ok])
    (by norm_num [frameRows, selectCols, colLookup, rowAt, List.range_succ, except_bind_ok])
    (by norm_num)
  exact h (0, [0]) (by simp)

/-! ### C10: guest lists are duplicate-free, shared counts need two members -/

theorem membersOf_nodup {tb : List (ℕ × Int)} (h : (tb.map Prod.fst).Nodup)
    (t : Int) : (membersOf tb t).Nodup := by
  have hsub : List.Sublist (membersOf tb t) (tb.map Prod.fst) :=
    List.Sublist.map Prod.fst (List.filter_sublist tb)
  exact h.sublist hsub

/-- In a flattened family of duplicate-free lists indexed by duplicate-free
keys, an element counted more than once comes from two distinct keys. -/
theorem exists_two_members (L : List ℕ) (f : ℕ → List ℕ) (g : ℕ)
    (hndL : L.Nodup) (hf : ∀ m ∈ L, (f m).Nodup)
    (hcount : 1 < ((L.map f).flatten.count g)) :
    ∃ m1 ∈ L, ∃ m2 ∈ L, m1 ≠ m2 ∧ g ∈ f m1 ∧ g ∈ f m2 := by
  induction L with
  | nil => simp at hcount
  | cons a L ih =>
    rw [List.map_cons, List.flatten_cons, List.count_append] at hcount
    obtain ⟨hna, hndL2⟩ := List.nodup_cons.mp hndL
    have hfa : (f a).count g ≤ 1 :=
      List.nodup_iff_count_le_one.mp (hf a (List.mem_cons_self ..)) g
    by_cases hga : g ∈ f a
    · have hrest : 0 < (L.map f).flatten.count g := by omega
      have hmem : g ∈ (L.map f).flatten := List.count_pos_iff.mp hrest
      obtain ⟨l, hl, hgl⟩ := List.mem_flatten.mp hmem
      obtain ⟨m2, hm2, hfm2⟩ := List.mem_map.mp hl
      refine ⟨a, List.mem_cons_self .., m2, List.mem_cons_of_mem _ hm2, ?_, hga, ?_⟩
      · intro heq; rw [heq] at hna; exact hna hm2
      · rw [hfm2]; exact hgl
    · have hzero : (f a).count g = 0 := List.count_eq_zero.mpr hga
      have hc2 : 1 < (L.map f).flatten.count g := by omega
      obtain ⟨m1, h1, m2, h2, hne, hg1, hg2⟩ :=
        ih hndL2 (fun m hm => hf m (List.mem_cons_of_mem _ hm)) hc2
      exact ⟨m1, List.mem_cons_of_mem _ h1, m2, List.mem_cons_of_mem _ h2, hne, hg1, hg2⟩

/-- C10: with unique reference ids, each computed guest list is
duplicate-free; hence in a cluster's pooled guest list (the intra-sharing
computation) a guest counted more than once is held by two distinct members. -/
theorem c10_nodup_guest_lists (refRows : List (ℕ × List ℚ)) (v : List ℚ) (d : ℚ)
    (tb : List (ℕ × Int)) (gl : List (ℕ × List ℕ)) (t : Int) (g : ℕ)
    (hndr : (refRows.map Prod.fst).Nodup)
    (hndt : (tb.map Prod.fst).Nodup)
    (hgl : ∀ m ∈ tb.map Prod.fst, (glLookup gl m).Nodup) :
    (guestListFor refRows v d).Nodup ∧
    (1 < (((membersOf tb t).map (glLookup gl)).flatten.count g) →
      ∃ m1 ∈ membersOf tb t, ∃ m2 ∈ membersOf tb t,
        m1 ≠ m2 ∧ g ∈ glLookup gl m1 ∧ g ∈ glLookup gl m2) := by
  constructor
  · have hsub : List.Sublist (guestListFor refRows v d) (refRows.map Prod.fst) :=
      List.Sublist.map Prod.fst (List.filter_sublist refRows)
    exact hndr.sublist hsub
  · intro hcount
    refine exists_two_members (membersOf tb t) (glLookup gl) g
      (membersOf_nodup hndt t) ?_ hcount
    intro m hm
    have : (m, t) ∈ tb := mem_membersOf.mp hm
    exact hgl m (List.mem_map_of_mem Prod.fst this)

/-- Witness for C10: two clustered members both holding guest 7; the count of
7 in the pooled list is 2, produced by the two distinct members 0 and 1. -/
theorem c10_nodup_guest_lists_witness :
    (guestListFor [((1 : ℕ), [(0 : ℚ)]), ((2 : ℕ), [(9 : ℚ)])] [(0 : ℚ)] 1).Nodup ∧
    (∃ m1 ∈ membersOf [((0 : ℕ), (0 : Int)), (1, 0)] 0,
     ∃ m2 ∈ membersOf [((0 : ℕ), (0 : Int)), (1, 0)] 0,
       m1 ≠ m2 ∧ (7 : ℕ) ∈ glLookup [((0 : ℕ), [(7 : ℕ)]), (1, [7])] m1 ∧
         (7 : ℕ) ∈ glLookup [((0 : ℕ), [(7 : ℕ)]), (1, [7])] m2) := by
  have h := c10_nodup_guest_lists [((1 : ℕ), [(0 : ℚ)]), ((2 : ℕ), [(9 : ℚ)])] [(0 : ℚ)] 1
    [((0 : ℕ), (0 : Int)), (1, 0)] [((0 : ℕ), [(7 : ℕ)]), (1, [7])] 0 7
    (by decide) (by decide) (by decide)
  exact ⟨h.1, h.2 (by decide)⟩

/-! ### C5: zero denominators and empty means in the metrics -/

theorem pairsUpper_eq_nil {α : Type} (l : List α) (h : l.length ≤ 1) :
    pairsUpper l = [] := by
  cases l with
  | nil => rfl
  | cons a rest =>
    cases rest with
    | nil => simp [pairsUpper]
    | cons b r2 => simp at h

/-- C5 (amended): the explicitly guarded quotients resolve a zero denominator
to 0 (per-cluster intra fraction, inter-table fraction, unique-vs-shared
fraction), but the pairwise means are NaN (`none`), not 0, when fewer than
two clusters exist, and the intra mean is NaN on an empty tabling. -/
theorem c5_guarded_and_nan (tb : List (ℕ × Int)) (gl : List (ℕ × List ℕ)) (t : Int) :
    ((((membersOf tb t).map (glLookup gl)).flatten = []) →
      clusterSharedFrac tb gl t = 0) ∧
    ((((labelsOf tb).map (tableGuestSet tb gl)).flatten = []) →
      ( inter_table_sharing_ratio tb gl = 0 ∧ unique_vs_shared_guests tb gl = 0)) ∧
    ((labelsOf tb).length ≤ 1 →
      (overlap_coefficient tb gl = .ok none ∧ jaccard_index tb gl = .ok none)) ∧
    (tb = [] → intra_table_sharing_ratio tb gl = none) := by
  refine ⟨?_, ?_, ?_, ?_⟩
  · intro h
    simp [clusterSharedFrac, h, uniq, uniqAux]
  · intro h
    constructor
    · simp [ inter_table_sharing_ratio, h, uniq, uniqAux]
    · simp [unique_vs_shared_guests, h, uniq, uniqAux]
  · intro h
    have hp : pairsUpper ((labelsOf tb).map (tableGuestSet tb gl)) = [] :=
      pairsUpper_eq_nil _ (by rw [List.length_map]; exact h)
    constructor
    · simp [overlap_coefficient, hp, collectRatios, meanQ, except_bind_ok]
    · simp [jaccard_index, hp, collectRatios, meanQ, except_bind_ok]
  · intro h
    subst h
    rfl

/-- Witness for C5 at concrete inputs: guarded fractions give 0 on empty
pools, the pairwise means give NaN (`none`) on a single cluster, and the
intra mean gives NaN on an empty tabling. -/
theorem c5_guarded_and_nan_witness :
    clusterSharedFrac [((0 : ℕ), (0 : Int))] [] 5 = 0 ∧
    ( inter_table_sharing_ratio [((0 : ℕ), (0 : Int))] [] = 0 ∧
      unique_vs_shared_guests [((0 : ℕ), (0 : Int))] [] = 0) ∧
    (overlap_coefficient [((0 : ℕ), (0 : Int))] [] = .ok none ∧
      jaccard_index [((0 : ℕ), (0 : Int))] [] = .ok none) ∧
    intra_table_sharing_ratio ([] : List (ℕ × Int)) [] = none := by
  have h1 := c5_guarded_and_nan [((0 : ℕ), (0 : Int))] [] 5
  have h2 := c5_guarded_and_nan ([] : List (ℕ × Int)) [] 0
  exact ⟨h1.1 (by rfl), h1.2.1 (by rfl), h1.2.2.1 (by decide), h2.2.2.2 (by rfl)⟩

/-- Counterexample for C5 as stated: with a single cluster (one attendee, one
guest), `overlap_coefficient` evaluates to the NaN marker (`none`, the mean of
an empty pair list), not to 0 and not by skipping the record. -/
theorem c5_counterexample :
    overlap_coefficient [((0 : ℕ), (0 : Int))] [((0 : ℕ), [(1 : ℕ)])] =
      Except.ok none ∧
    (Except.ok none : Except String (Option ℚ)) ≠ Except.ok (some 0) := by
  constructor
  · rfl
  · intro h
    exact Option.noConfusion (Except.ok.inj h)

/-! ### C9: bounds on the metric values -/

theorem ratio_if_bounds (a b : ℕ) (hab : a ≤ b) :
    0 ≤ (if b = 0 then (0 : ℚ) else (a : ℚ) / (b : ℚ)) ∧
      (if b = 0 then (0 : ℚ) else (a : ℚ) / (b : ℚ)) ≤ 1 := by
  by_cases hb : b = 0
  · simp [hb]
  · rw [if_neg hb]
    have hbq : (0 : ℚ) < (b : ℚ) := by exact_mod_cast Nat.pos_of_ne_zero hb
    constructor
    · positivity
    · rw [div_le_one hbq]; exact_mod_cast hab

theorem clusterSharedFrac_bounds (tb : List (ℕ × Int)) (gl : List (ℕ × List ℕ))
    (t : Int) : 0 ≤ clusterSharedFrac tb gl t ∧ clusterSharedFrac tb gl t ≤ 1 := by
  simp only [clusterSharedFrac]
  exact ratio_if_bounds _ _ (List.length_filter_le _ _)

theorem inter_table_bounds (tb : List (ℕ × Int)) (gl : List (ℕ × List ℕ)) :
    0 ≤ inter_table_sharing_ratio tb gl ∧ inter_table_sharing_ratio tb gl ≤ 1 := by
  simp only [ inter_table_sharing_ratio]
  exact ratio_if_bounds _ _ (List.length_filter_le _ _)

theorem unique_vs_shared_bounds (tb : List (ℕ × Int)) (gl : List (ℕ × List ℕ)) :
    0 ≤ unique_vs_shared_guests tb gl ∧ unique_vs_shared_guests tb gl ≤ 1 := by
  simp only [unique_vs_shared_guests]
  exact ratio_if_bounds _ _ (List.length_filter_le _ _)

theorem meanQ_bounds (l : List ℚ) (hne : l ≠ [])
    (hlb : ∀ x ∈ l, 0 ≤ x) (hub : ∀ x ∈ l, x ≤ 1) :
    ∃ q, meanQ l = some q ∧ 0 ≤ q ∧ q ≤ 1 := by
  have hlen : (0 : ℚ) < (l.length : ℚ) := by
    exact_mod_cast List.length_pos.mpr hne
  refine ⟨l.sum / (l.length : ℚ), ?_, ?_, ?_⟩
  · simp [meanQ, hne]
  · exact div_nonneg (List.sum_nonneg hlb) (le_of_lt hlen)
  · rw [div_le_one hlen]
    have := List.sum_le_card_nsmul l 1 hub
    simpa using this

theorem collectRatios_ok {α : Type} (f : α → Except String ℚ) (l : List α)
    (h : ∀ a ∈ l, ∃ q, f a = .ok q ∧ 0 ≤ q ∧ q ≤ 1) :
    ∃ qs, collectRatios f l = .ok qs ∧ qs.length = l.length ∧
      ∀ q ∈ qs, 0 ≤ q ∧ q ≤ 1 := by
  induction l with
  | nil => exact ⟨[], rfl, rfl, by simp⟩
  | cons a l ih =>
    obtain ⟨q, hq, hq0, hq1⟩ := h a (List.mem_cons_self ..)
    obtain ⟨qs, hqs, hlen, hall⟩ := ih (fun b hb => h b (List.mem_cons_of_mem _ hb))
    refine ⟨q :: qs, ?_, by simp [hlen], ?_⟩
    · simp only [collectRatios, hq, hqs, except_bind_ok]
    · intro x hx
      rcases List.mem_cons.mp hx with rfl | hx2
      · exact ⟨hq0, hq1⟩
      · exact hall x hx2

theorem pairsUpper_mem {α : Type} :
    ∀ (l : List α) (p : α × α), p ∈ pairsUpper l → p.1 ∈ l ∧ p.2 ∈ l := by
  intro l
  induction l with
  | nil => simp [pairsUpper]
  | cons a rest ih =>
    intro p hp
    rw [pairsUpper, List.mem_append] at hp
    rcases hp with hp | hp
    · obtain ⟨b, hb, hpb⟩ := List.mem_map.mp hp
      rw [← hpb]
      exact ⟨List.mem_cons_self .., List.mem_cons_of_mem _ hb⟩
    · obtain ⟨h1, h2⟩ := ih p hp
      exact ⟨List.mem_cons_of_mem _ h1, List.mem_cons_of_mem _ h2⟩

theorem pairsUpper_ne_nil {α : Type} (l : List α) (h : 2 ≤ l.length) :
    pairsUpper l ≠ [] := by
  cases l with
  | nil => simp at h
  | cons a rest =>
    cases rest with
    | nil => simp at h
    | cons b r2 => simp [pairsUpper]

theorem nodup_subset_length {s t : List ℕ} (hs : s.Nodup)
    (hsub : ∀ x ∈ s, x ∈ t) : s.length ≤ t.length := by
  have h1 : s.toFinset.card = s.length := List.toFinset_card_of_nodup hs
  have h2 : s.toFinset ⊆ t.toFinset := by
    intro x hx
    exact List.mem_toFinset.mpr (hsub x (List.mem_toFinset.mp hx))
  calc s.length = s.toFinset.card := h1.symm
    _ ≤ t.toFinset.card := Finset.card_le_card h2
    _ ≤ t.length := List.toFinset_card_le t

theorem tableGuestSet_nodup (tb : List (ℕ × Int)) (gl : List (ℕ × List ℕ))
    (t : Int) : (tableGuestSet tb gl t).Nodup :=
  nodup_uniq _

theorem tableGuestSet_ne_nil (tb : List (ℕ × Int)) (gl : List (ℕ × List ℕ))
    (hg : ∀ m ∈ tb.map Prod.fst, glLookup gl m ≠ []) {t : Int}
    (ht : t ∈ labelsOf tb) : tableGuestSet tb gl t ≠ [] := by
  obtain ⟨p, hp, hpt⟩ := mem_labelsOf.mp ht
  have hm : p.1 ∈ membersOf tb t := by
    refine mem_membersOf.mpr ?_
    rw [← hpt]
    exact hp
  obtain ⟨g, hgm⟩ := List.exists_mem_of_ne_nil _ (hg p.1 (List.mem_map_of_mem Prod.fst hp))
  have hgf : g ∈ ((membersOf tb t).map (glLookup gl)).flatten :=
    List.mem_flatten.mpr ⟨glLookup gl p.1, List.mem_map_of_mem _ hm, hgm⟩
  exact List.ne_nil_of_mem (mem_uniq.mpr hgf)

theorem pydiv_ok_of_le {a b : ℕ} (hb : 0 < b) (hab : a ≤ b) :
    ∃ q, pydiv ((a : ℕ) : ℚ) ((b : ℕ) : ℚ) = .ok q ∧ 0 ≤ q ∧ q ≤ 1 := by
  have hbq : (0 : ℚ) < ((b : ℕ) : ℚ) := by exact_mod_cast hb
  refine ⟨((a : ℕ) : ℚ) / ((b : ℕ) : ℚ), ?_, ?_, ?_⟩
  · simp only [pydiv, if_neg (ne_of_gt hbq)]
  · positivity
  · rw [div_le_one hbq]; exact_mod_cast hab

theorem interCount_le_min {s t : List ℕ} (hs : s.Nodup) :
    interCount s t ≤ min s.length t.length := by
  refine le_min (List.length_filter_le _ _) ?_
  refine nodup_subset_length (hs.filter _) ?_
  intro x hx
  have := (List.mem_filter.mp hx).2
  simpa using this

theorem interCount_le_unionCount (s t : List ℕ) (hs : s.Nodup) :
    interCount s t ≤ unionCount s t := by
  refine nodup_subset_length (hs.filter _) ?_
  intro x hx
  have h1 : x ∈ s := (List.mem_filter.mp hx).1
  exact mem_uniq.mpr (List.mem_append.mpr (Or.inl h1))

theorem length_filter_add_filter_le {α : Type} (l : List α) (p q : α → Bool)
    (h : ∀ x, ¬(p x = true ∧ q x = true)) :
    (l.filter p).length + (l.filter q).length ≤ l.length := by
  induction l with
  | nil => simp
  | cons a lt ih =>
    rw [List.filter_cons, List.filter_cons]
    by_cases hp : p a = true
    · have hq : ¬ q a = true := fun hc => h a ⟨hp, hc⟩
      simp only [if_pos hp, if_neg hq, List.length_cons]
      omega
    · by_cases hq : q a = true
      · simp only [if_neg hp, if_pos hq, List.length_cons]
        omega
      · simp only [if_neg hp, if_neg hq, List.length_cons]
        omega

/-- C9 (amended): on a nonempty collection and nonempty clustered set, when at
least two non-noise clusters exist and every clustered member's guest list is
nonempty (lonelies are excluded before clustering), every ratio metric is
defined and lies in [0, 1] and the sharing differential lies in [-1, 1]; with
fewer than two clusters the pairwise means are NaN instead (see the
counterexample). -/
theorem c9_metric_bounds (full : List BanquetLabel) (allLabels : List Int)
    (tb : List (ℕ × Int)) (gl : List (ℕ × List ℕ))
    (hfull : full ≠ []) (hall : allLabels ≠ [])
    (h2 : 2 ≤ (labelsOf tb).length)
    (hg : ∀ m ∈ tb.map Prod.fst, glLookup gl m ≠ []) :
    (∃ q, compute_tableable_percentage full = .ok q ∧ 0 ≤ q ∧ q ≤ 1) ∧
    (∃ q, compute_noise_percentage allLabels = .ok q ∧ 0 ≤ q ∧ q ≤ 1) ∧
    (∃ qi, intra_table_sharing_ratio tb gl = some qi ∧ 0 ≤ qi ∧ qi ≤ 1 ∧
      -1 ≤ guest_sharing_differential qi ( inter_table_sharing_ratio tb gl) ∧
      guest_sharing_differential qi ( inter_table_sharing_ratio tb gl) ≤ 1) ∧
    (0 ≤ inter_table_sharing_ratio tb gl ∧ inter_table_sharing_ratio tb gl ≤ 1) ∧
    (∃ q, overlap_coefficient tb gl = .ok (some q) ∧ 0 ≤ q ∧ q ≤ 1) ∧
    (∃ q, jaccard_index tb gl = .ok (some q) ∧ 0 ≤ q ∧ q ≤ 1) ∧
    (0 ≤ unique_vs_shared_guests tb gl ∧ unique_vs_shared_guests tb gl ≤ 1) := by
  have hinter := inter_table_bounds tb gl
  have hsetsfacts : ∀ s ∈ (labelsOf tb).map (tableGuestSet tb gl), s.Nodup ∧ s ≠ [] := by
    intro s hs
    obtain ⟨t, ht, hts⟩ := List.mem_map.mp hs
    rw [← hts]
    exact ⟨tableGuestSet_nodup tb gl t, tableGuestSet_ne_nil tb gl hg ht⟩
  have hpairs_ne : pairsUpper ((labelsOf tb).map (tableGuestSet tb gl)) ≠ [] :=
    pairsUpper_ne_nil _ (by rw [List.length_map]; exact h2)
  refine ⟨?_, ?_, ?_, hinter, ?_, ?_, unique_vs_shared_bounds tb gl⟩
  · -- tableable percentage
    have hn : 0 < full.length := List.length_pos.mpr hfull
    have hnq : (0 : ℚ) < (full.length : ℚ) := by exact_mod_cast hn
    have hk := length_filter_add_filter_le full
      (fun x => decide (x = BanquetLabel.lonely))
      (fun x => decide (x = BanquetLabel.outsider))
      (by
        intro x
        rintro ⟨hx1, hx2⟩
        rw [decide_eq_true_eq] at hx1 hx2
        rw [hx1] at hx2
        exact BanquetLabel.noConfusion hx2)
    have hkq : ((((full.filter (fun x => decide (x = BanquetLabel.lonely))).length +
        (full.filter (fun x => decide (x = BanquetLabel.outsider))).length : ℕ)) : ℚ) ≤
        (full.length : ℚ) := by exact_mod_cast hk
    have hk0 : (0 : ℚ) ≤ ((((full.filter (fun x => decide (x = BanquetLabel.lonely))).length +
        (full.filter (fun x => decide (x = BanquetLabel.outsider))).length : ℕ)) : ℚ) :=
      Nat.cast_nonneg _
    refine ⟨((full.length : ℚ) -
        ((((full.filter (fun x => decide (x = BanquetLabel.lonely))).length +
           (full.filter (fun x => decide (x = BanquetLabel.outsider))).length : ℕ)) : ℚ)) /
        (full.length : ℚ), ?_, ?_, ?_⟩
    · simp only [compute_tableable_percentage, pydiv, if_neg (ne_of_gt hnq)]
    · exact div_nonneg (by linarith) (le_of_lt hnq)
    · rw [div_le_one hnq]; linarith
  · -- noise percentage
    have hn : 0 < allLabels.length := List.length_pos.mpr hall
    have hnq : (0 : ℚ) < (allLabels.length : ℚ) := by exact_mod_cast hn
    have hk : ((((allLabels.filter (fun x => x == -1)).length : ℕ)) : ℚ) ≤
        (allLabels.length : ℚ) := by
      exact_mod_cast List.length_filter_le _ _
    refine ⟨((((allLabels.filter (fun x => x == -1)).length : ℕ)) : ℚ) /
        (allLabels.length : ℚ), ?_, ?_, ?_⟩
    · simp only [compute_noise_percentage, pydiv, if_neg (ne_of_gt hnq)]
    · exact div_nonneg (Nat.cast_nonneg _) (le_of_lt hnq)
    · rw [div_le_one hnq]; exact hk
  · -- intra ratio and the differential
    have hlabne : labelsOf tb ≠ [] := by
      intro hc
      rw [hc] at h2
      simp at h2
    have hmapne : (labelsOf tb).map (clusterSharedFrac tb gl) ≠ [] := by
      simpa using hlabne
    obtain ⟨qi, hqi, h0, h1⟩ := meanQ_bounds _ hmapne
      (by
        intro x hx
        obtain ⟨t, _, hts⟩ := List.mem_map.mp hx
        rw [← hts]
        exact (clusterSharedFrac_bounds tb gl t).1)
      (by
        intro x hx
        obtain ⟨t, _, hts⟩ := List.mem_map.mp hx
        rw [← hts]
        exact (clusterSharedFrac_bounds tb gl t).2)
    refine ⟨qi, hqi, h0, h1, ?_, ?_⟩
    · show -1 ≤ qi - inter_table_sharing_ratio tb gl
      linarith [hinter.2]
    · show qi - inter_table_sharing_ratio tb gl ≤ 1
      linarith [hinter.1]
  · -- overlap coefficient
    have hpairs : ∀ pr ∈ pairsUpper ((labelsOf tb).map (tableGuestSet tb gl)),
        ∃ q, pydiv ((interCount pr.1 pr.2 : ℕ) : ℚ)
            ((min pr.1.length pr.2.length : ℕ) : ℚ) = .ok q ∧ 0 ≤ q ∧ q ≤ 1 := by
      intro pr hpr
      obtain ⟨hm1, hm2⟩ := pairsUpper_mem _ pr hpr
      obtain ⟨hnd1, hne1⟩ := hsetsfacts _ hm1
      obtain ⟨_, hne2⟩ := hsetsfacts _ hm2
      exact pydiv_ok_of_le
        (lt_min (List.length_pos.mpr hne1) (List.length_pos.mpr hne2))
        (interCount_le_min hnd1)
    obtain ⟨qs, hqs, hlen, hall2⟩ := collectRatios_ok _ _ hpairs
    have hqsne : qs ≠ [] := by
      intro hc
      rw [hc] at hlen
      exact hpairs_ne (List.eq_nil_of_length_eq_zero hlen.symm)
    obtain ⟨q, hq, h0, h1⟩ := meanQ_bounds qs hqsne
      (fun x hx => (hall2 x hx).1) (fun x hx => (hall2 x hx).2)
    refine ⟨q, ?_, h0, h1⟩
    show overlap_coefficient tb gl = .ok (some q)
    simp only [overlap_coefficient]
    rw [hqs, except_bind_ok, hq]
  · -- jaccard index
    have hpairs : ∀ pr ∈ pairsUpper ((labelsOf tb).map (tableGuestSet tb gl)),
        ∃ q, pydiv ((interCount pr.1 pr.2 : ℕ) : ℚ)
            ((unionCount pr.1 pr.2 : ℕ) : ℚ) = .ok q ∧ 0 ≤ q ∧ q ≤ 1 := by
      intro pr hpr
      obtain ⟨hm1, hm2⟩ := pairsUpper_mem _ pr hpr
      obtain ⟨hnd1, hne1⟩ := hsetsfacts _ hm1
      have hub : 0 < unionCount pr.1 pr.2 := by
        refine List.length_pos.mpr (uniq_ne_nil ?_)
        intro hc
        exact hne1 (List.append_eq_nil.mp hc).1
      exact pydiv_ok_of_le hub (interCount_le_unionCount pr.1 pr.2 hnd1)
    obtain ⟨qs, hqs, hlen, hall2⟩ := collectRatios_ok _ _ hpairs
    have hqsne : qs ≠ [] := by
      intro hc
      rw [hc] at hlen
      exact hpairs_ne (List.eq_nil_of_length_eq_zero hlen.symm)
    obtain ⟨q, hq, h0, h1⟩ := meanQ_bounds qs hqsne
      (fun x hx => (hall2 x hx).1) (fun x hx => (hall2 x hx).2)
    refine ⟨q, ?_, h0, h1⟩
    show jaccard_index tb gl = .ok (some q)
    simp only [jaccard_index]
    rw [hqs, except_bind_ok, hq]

/-- Witness for C9: full labels {0, 1, lonely}, clustered labels {0, 1, -1},
two one-member clusters with guest lists [3] and [3,4]; all metric values are
defined and within bounds. -/
theorem c9_metric_bounds_witness :
    (∃ q, compute_tableable_percentage [BanquetLabel.table 0, BanquetLabel.table 1,
        BanquetLabel.lonely] = .ok q ∧ 0 ≤ q ∧ q ≤ 1) ∧
    (∃ q, compute_noise_percentage [(0 : Int), 1, -1] = .ok q ∧ 0 ≤ q ∧ q ≤ 1) ∧
    (∃ qi, intra_table_sharing_ratio [((0 : ℕ), (0 : Int)), (1, 1)]
        [((0 : ℕ), [(3 : ℕ)]), (1, [3, 4])] = some qi ∧ 0 ≤ qi ∧ qi ≤ 1 ∧
      -1 ≤ guest_sharing_differential qi
          ( inter_table_sharing_ratio [((0 : ℕ), (0 : Int)), (1, 1)]
            [((0 : ℕ), [(3 : ℕ)]), (1, [3, 4])]) ∧
      guest_sharing_differential qi
          ( inter_table_sharing_ratio [((0 : ℕ), (0 : Int)), (1, 1)]
            [((0 : ℕ), [(3 : ℕ)]), (1, [3, 4])]) ≤ 1) ∧
    (0 ≤ inter_table_sharing_ratio [((0 : ℕ), (0 : Int)), (1, 1)]
        [((0 : ℕ), [(3 : ℕ)]), (1, [3, 4])] ∧
      inter_table_sharing_ratio [((0 : ℕ), (0 : Int)), (1, 1)]
        [((0 : ℕ), [(3 : ℕ)]), (1, [3, 4])] ≤ 1) ∧
    (∃ q, overlap_coefficient [((0 : ℕ), (0 : Int)), (1, 1)]
        [((0 : ℕ), [(3 : ℕ)]), (1, [3, 4])] = .ok (some q) ∧ 0 ≤ q ∧ q ≤ 1) ∧
    (∃ q, jaccard_index [((0 : ℕ), (0 : Int)), (1, 1)]
        [((0 : ℕ), [(3 : ℕ)]), (1, [3, 4])] = .ok (some q) ∧ 0 ≤ q ∧ q ≤ 1) ∧
    (0 ≤ unique_vs_shared_guests [((0 : ℕ), (0 : Int)), (1, 1)]
        [((0 : ℕ), [(3 : ℕ)]), (1, [3, 4])] ∧
      unique_vs_shared_guests [((0 : ℕ), (0 : Int)), (1, 1)]
        [((0 : ℕ), [(3 : ℕ)]), (1, [3, 4])] ≤ 1) :=
  c9_metric_bounds [BanquetLabel.table 0, BanquetLabel.table 1, BanquetLabel.lonely]
    [(0 : Int), 1, -1] [((0 : ℕ), (0 : Int)), (1, 1)] [((0 : ℕ), [(3 : ℕ)]), (1, [3, 4])]
    (by decide) (by decide) (by decide) (by decide)

/-- Counterexample for C9 as stated: a finished tabling whose non-noise part
is a single two-member cluster makes `jaccard_index` evaluate to the NaN
marker (`none`) — not a value in [0, 1]. -/
theorem c9_counterexample :
    jaccard_index [((0 : ℕ), (0 : Int)), ((1 : ℕ), (0 : Int))]
        [((0 : ℕ), [(7 : ℕ)]), (1, [7])] = Except.ok none ∧
    (Except.ok none : Except String (Option ℚ)) ≠ Except.ok (some (1 / 2)) := by
  constructor
  · rfl
  · intro h
    exact Option.noConfusion (Except.ok.inj h)

/-! ### C6: behavior on missing columns and nonpositive thresholds -/

theorem selectCols_error (f : Frame) (cs : List String)
    (h : ∃ c ∈ cs, colLookup f c = none) :
    ∃ e, selectCols f cs = .error e := by
  induction cs with
  | nil => simp at h
  | cons c rest ih =>
    obtain ⟨c0, hc0, hnone⟩ := h
    rcases List.mem_cons.mp hc0 with hce | hmem
    · rw [hce] at hnone
      exact ⟨"KeyError: " ++ c, by simp [selectCols, hnone]⟩
    · cases hcl : colLookup f c with
      | none => exact ⟨"KeyError: " ++ c, by simp [selectCols, hcl]⟩
      | some v =>
        obtain ⟨e, he⟩ := ih ⟨c0, hmem, hnone⟩
        exact ⟨e, by simp [selectCols, hcl, he, except_bind_error]⟩

theorem frameRows_error (f : Frame) (cs : List String)
    (h : ∃ e, selectCols f cs = .error e) :
    ∃ e, frameRows f cs = .error e := by
  obtain ⟨e, he⟩ := h
  exact ⟨e, by simp [frameRows, he, except_bind_error]⟩

/-- C6 (amended): a missing feature column is reported as an error before any
relation is produced; but a nonpositive threshold d is NOT an error — the
computation succeeds and every attendee's guest list is empty (since no
Euclidean distance is strictly below a nonpositive d). -/
theorem c6_shape_error_and_nonpositive_d (coll ref : Frame) (cs : List String)
    (d : ℚ) :
    ((∃ c ∈ cs, colLookup coll c = none ∨ colLookup ref c = none) →
      ∃ e, get_guest_lists coll ref cs d = .error e) ∧
    (d ≤ 0 → ∀ gl, get_guest_lists coll ref cs d = .ok gl → ∀ p ∈ gl, p.2 = []) := by
  constructor
  · rintro ⟨c, hc, hmiss | hmiss⟩
    · obtain ⟨e, he⟩ := frameRows_error coll cs (selectCols_error coll cs ⟨c, hc, hmiss⟩)
      exact ⟨e, by simp [get_guest_lists, he, except_bind_error]⟩
    · cases hfr : frameRows coll cs with
      | error e =>
        exact ⟨e, by simp [get_guest_lists, hfr, except_bind_error]⟩
      | ok collRows =>
        obtain ⟨e, he⟩ := frameRows_error ref cs (selectCols_error ref cs ⟨c, hc, hmiss⟩)
        exact ⟨e, by
          simp [get_guest_lists, hfr, he, except_bind_ok, except_bind_error]⟩
  · intro hd gl hgl p hp
    cases hfr : frameRows coll cs with
    | error e =>
      rw [get_guest_lists, hfr, except_bind_error] at hgl
      exact Except.noConfusion hgl
    | ok collRows =>
      cases hfr2 : frameRows ref cs with
      | error e =>
        rw [get_guest_lists, hfr, except_bind_ok, hfr2, except_bind_error] at hgl
        exact Except.noConfusion hgl
      | ok refRows =>
        have hgl2 : gl = collRows.map (fun r => (r.1, guestListFor refRows r.2 d)) :=
          get_guest_lists_ok hfr hfr2 hgl
        rw [hgl2] at hp
        obtain ⟨r, _, hrp⟩ := List.mem_map.mp hp
        rw [← hrp]
        show guestListFor refRows r.2 d = []
        have hfalse : ∀ q ∈ refRows, distLt r.2 q.2 d = false := by
          intro q _
          rw [Bool.eq_false_iff]
          intro hc
          exact absurd (distLt_iff.mp hc).1 (not_lt.mpr hd)
        rw [guestListFor]
        rw [List.filter_eq_nil_iff.mpr (by
          intro q hq
          rw [hfalse q hq]
          exact Bool.false_ne_true)]
        rfl

/-- Witness for C6: a column missing from the reference frame raises an
error, and with d = -1 on well-formed frames the result is Ok with an empty
guest list. -/
theorem c6_shape_error_and_nonpositive_d_witness :
    (∃ e, get_guest_lists ⟨[0], [("x", [0]), ("y", [0])]⟩ ⟨[1], [("x", [0])]⟩
        ["x", "y"] 1 = .error e) ∧
    (∀ p ∈ [((0 : ℕ), ([] : List ℕ))], p.2 = ([] : List ℕ)) := by
  have h1 := c6_shape_error_and_nonpositive_d ⟨[0], [("x", [0]), ("y", [0])]⟩
    ⟨[1], [("x", [0])]⟩ ["x", "y"] 1
  have h2 := c6_shape_error_and_nonpositive_d ⟨[0], [("x", [0])]⟩ ⟨[1], [("x", [0])]⟩
    ["x"] (-1)
  refine ⟨h1.1 ⟨"y", by simp, Or.inr (by rfl)⟩, ?_⟩
  exact h2.2 (by norm_num) [((0 : ℕ), ([] : List ℕ))]
    (by norm_num [get_guest_lists, frameRows, selectCols, colLookup, rowAt, guestListFor,
      distLt, sqDist, List.range_succ, List.filter, except_bind_ok])

/-- Counterexample for C6 as stated: with matched feature axes and d = 0 the
guest-relation computation does not report any error — it succeeds and returns
an empty guest list for the attendee. -/
theorem c6_counterexample :
    get_guest_lists ⟨[0], [("x", [0])]⟩ ⟨[1], [("x", [0])]⟩ ["x"] 0 =
      Except.ok [((0 : ℕ), ([] : List ℕ))] := by
  norm_num [get_guest_lists, frameRows, selectCols, colLookup, rowAt, guestListFor,
    distLt, sqDist, List.range_succ, List.filter, except_bind_ok]

/-! ### C7: the inflection analyzer -/

/-- C7 (amended): a value is returned by `find_inflection_points` iff its
total number of flaggings — summed over all metric columns and all
consecutive-record positions — exceeds one (two flaggings by one and the same
column also pass the filter); and a column flags exactly the 3-decimal
roundings of the d values at positions where it rises by more than the
threshold. -/
theorem c7_inflection_characterization (mf : MetricsFrame) (th : ℚ)
    (_hsorted : mf.dvals.Pairwise (· < ·)) :
    ∀ x : ℚ,
      (x ∈ find_inflection_points mf th ↔
        1 < ((mf.cols.map (fun c => colFlags mf.dvals c th)).flatten.count x)) ∧
      (∀ c : List ℚ, x ∈ colFlags mf.dvals c th ↔
        ∃ i, 1 ≤ i ∧ i < mf.dvals.length ∧ th < c.getD i 0 - c.getD (i - 1) 0 ∧
          x = round3 (mf.dvals.getD i 0)) := by
  intro x
  constructor
  · simp only [find_inflection_points, List.mem_filter, decide_eq_true_eq]
    constructor
    · rintro ⟨_, h⟩; exact h
    · intro h
      refine ⟨List.count_pos_iff.mp (by omega), h⟩
  · intro c
    simp only [colFlags, List.mem_filterMap, List.mem_range]
    constructor
    · rintro ⟨i, hi, hopt⟩
      by_cases hcond : 1 ≤ i ∧ th < c.getD i 0 - c.getD (i - 1) 0
      · rw [if_pos hcond] at hopt
        exact ⟨i, hcond.1, hi, hcond.2, (Option.some.inj hopt).symm⟩
      · rw [if_neg hcond] at hopt
        exact Option.noConfusion hopt
    · rintro ⟨i, h1, h2, h3, h4⟩
      refine ⟨i, h2, ?_⟩
      rw [if_pos ⟨h1, h3⟩, h4]

/-- Witness for C7: two metric columns both rising by 1 between d = 0 and
d = 1 with threshold 1/2. -/
theorem c7_inflection_characterization_witness :
    ((1 : ℚ) ∈ find_inflection_points ⟨[0, 1], [[0, 1], [0, 1]]⟩ (1 / 2) ↔
      1 < ((([[(0 : ℚ), 1], [0, 1]] : List (List ℚ)).map
        (fun c => colFlags [0, 1] c (1 / 2))).flatten.count 1)) ∧
    (∀ c : List ℚ, (1 : ℚ) ∈ colFlags [0, 1] c (1 / 2) ↔
      ∃ i, 1 ≤ i ∧ i < ([(0 : ℚ), 1] : List ℚ).length ∧
        (1 / 2 : ℚ) < c.getD i 0 - c.getD (i - 1) 0 ∧
        (1 : ℚ) = round3 (([(0 : ℚ), 1] : List ℚ).getD i 0)) :=
  c7_inflection_characterization ⟨[0, 1], [[0, 1], [0, 1]]⟩ (1 / 2)
    (by norm_num [List.pairwise_cons]) 1

/-- Counterexample for C7 as stated: with a single metric column and d values
0, 0.1001, 0.1002 (both of the latter rounding to 0.1), the column flags 0.1
twice; the code's count-based filter keeps both flags even though only one
metric column flagged them, while the spec's distinct-column reading would
return nothing. -/
theorem c7_counterexample :
    find_inflection_points ⟨[0, 1001 / 10000, 1002 / 10000], [[0, 1, 2]]⟩ (1 / 10) =
      [1 / 10, 1 / 10] ∧
    spec_inflection_points ⟨[0, 1001 / 10000, 1002 / 10000], [[0, 1, 2]]⟩ (1 / 10) =
      [] := by
  have hr1 : round3 (1001 / 10000) = 1 / 10 := by
    rw [round3, roundHalfEven]
    norm_num
  have hr2 : round3 (501 / 5000) = 1 / 10 := by
    rw [round3, roundHalfEven]
    norm_num
  constructor
  · norm_num [find_inflection_points, colFlags, List.range_succ, hr1, hr2,
      List.filterMap_cons, List.filter, List.count_cons]
  · norm_num [spec_inflection_points, colFlags, List.range_succ, hr1, hr2,
      List.filterMap_cons, List.filter]

end Collproc
